import Mathlib

/-
  Verification development for NaturalDB's core (custom JSON codec, query
  operations, joins, the chainable query builder, sanitization, and the
  query-engine facade), embedded shallowly from the Python sources under
  `naturaldb/`.

  Modelling conventions:
  * Python values flowing through the query layer (the result domain of the
    custom JSON parser) are embedded as `PyVal`: None, bool, int, float, str,
    list, dict.  Python dicts are insertion-ordered, so they are embedded as
    key/value lists; the parser and the merge operations never produce
    duplicate keys.
  * Python floats are embedded as exact rationals.  None of the properties
    settled below depends on IEEE-754 rounding; the places where real float
    behaviour would be observable (`str()` of a float, Python float-literal
    rounding) are marked by an explicit `unmodelled` error or documented at
    the definition.
  * Fallible Python code (raising exceptions) is embedded in `Except String`;
    a caught exception corresponds to matching on `.error`.
  * The in-process lock manager is not modelled: every operation embedded here
    is single-threaded and the locks only bracket the underlying filesystem
    calls.
  * String scanning is done on `List Char`; Python `str` operations are
    reimplemented structurally (`strSplitOnChar` for `str.split(sep)`, and so
    on) so that concrete instances compute.
-/

namespace NaturalDB

/-! ### Character-list string utilities -/

/-- Python `s.split(sep)` for a single-character separator (keeps empty
segments, and splitting the empty string gives one empty segment). -/
def splitOnCharAux (sep : Char) (cur : List Char) : List Char → List String
  | [] => [String.mk cur.reverse]
  | c :: cs =>
    if c == sep then String.mk cur.reverse :: splitOnCharAux sep [] cs
    else splitOnCharAux sep (c :: cur) cs

/-- Python `s.split(sep)` for a single-character separator. -/
def strSplitOnChar (sep : Char) (s : String) : List String :=
  splitOnCharAux sep [] s.toList

/-- Python `sep in s` for a single character. -/
def strContainsChar (c : Char) (s : String) : Bool :=
  s.toList.contains c

/-- `hay` starts with `pat`. -/
def listStartsWith : List Char → List Char → Bool
  | _, [] => true
  | [], _ :: _ => false
  | a :: as, b :: bs => a == b && listStartsWith as bs

/-- Python substring test `pat in hay` on character lists. -/
def listHasInfix (hay pat : List Char) : Bool :=
  if listStartsWith hay pat then true
  else
    match hay with
    | [] => false
    | _ :: t => listHasInfix t pat

/-! ### The Python value domain -/

/-- The Python value domain of NaturalDB records: the output domain of
`JSONParser.parse_string` and the element type of `Record.data`.  Dicts are
insertion-ordered key/value lists.  Floats are exact rationals (see the file
header). -/
inductive PyVal where
  | vnone  : PyVal
  | vbool  : Bool → PyVal
  | vint   : Int → PyVal
  | vfloat : ℚ → PyVal
  | vstr   : String → PyVal
  | vlist  : List PyVal → PyVal
  | vdict  : List (String × PyVal) → PyVal

/-- Python `x is None` (in the embedding, `None` has a unique value, so the
identity test coincides with a constructor test). -/
def PyVal.isNone : PyVal → Bool
  | .vnone => true
  | _ => false

/-- Numeric view used by Python's cross-type comparisons and arithmetic:
`bool` is an `int` subclass (`True == 1`), `int` and `float` compare by
mathematical value. -/
def PyVal.toNum? : PyVal → Option ℚ
  | .vbool b  => some (if b then 1 else 0)
  | .vint n   => some (n : ℚ)
  | .vfloat q => some q
  | _         => none

/-- Python hashability: scalars are hashable; lists and dicts raise
`TypeError` when used as dict keys (as join-field values are). -/
def pyHashable : PyVal → Bool
  | .vlist _ => false
  | .vdict _ => false
  | _ => true

mutual
/-- Python `==` on embedded values: `None == None`; numbers (bool/int/float)
compare by value; strings by contents; lists elementwise; dicts by key set and
per-key values (order-insensitive; the embedded dicts are duplicate-free). -/
def pyEq : PyVal → PyVal → Bool
  | .vnone, .vnone => true
  | .vstr a, .vstr b => a == b
  | .vlist xs, .vlist ys => pyEqList xs ys
  | .vdict xs, .vdict ys => xs.length == ys.length && pyEqKVSub xs ys
  | a, b =>
    match a.toNum?, b.toNum? with
    | some x, some y => x == y
    | _, _ => false
termination_by a _ => (sizeOf a, 1)

/-- Elementwise Python `==` on lists. -/
def pyEqList : List PyVal → List PyVal → Bool
  | [], [] => true
  | x :: xs, y :: ys => pyEq x y && pyEqList xs ys
  | _, _ => false
termination_by xs _ => (sizeOf xs, 2)

/-- Every key of the first dict is present in the second with a `pyEq`-equal
value. -/
def pyEqKVSub : List (String × PyVal) → List (String × PyVal) → Bool
  | [], _ => true
  | (k, v) :: rest, ys => pyEqFind k v ys && pyEqKVSub rest ys
termination_by xs _ => (sizeOf xs, 2)

/-- Membership of one key/value pair in a dict, comparing values with `pyEq`. -/
def pyEqFind (k : String) (v : PyVal) : List (String × PyVal) → Bool
  | [] => false
  | (k2, v2) :: rest => if k == k2 then pyEq v v2 else pyEqFind k v rest
termination_by ys => (sizeOf v, 2 + sizeOf ys)
end

mutual
/-- Python `<` on embedded values: numbers by value, strings by code points,
lists lexicographically; every other pair (in particular anything involving
`None` or dicts) raises `TypeError`. -/
def pyLt : PyVal → PyVal → Except String Bool
  | .vstr a, .vstr b => .ok (decide (a < b))
  | .vlist xs, .vlist ys => pyLtList xs ys
  | a, b =>
    match a.toNum?, b.toNum? with
    | some x, some y => .ok (decide (x < y))
    | _, _ => .error "TypeError: unorderable types"
termination_by a _ => (sizeOf a, 1)

/-- Python list `<`: skip `pyEq`-equal heads, compare the first mismatch with
`pyLt`; a strict prefix is smaller. -/
def pyLtList : List PyVal → List PyVal → Except String Bool
  | [], [] => .ok false
  | [], _ :: _ => .ok true
  | _ :: _, [] => .ok false
  | x :: xs, y :: ys => if pyEq x y then pyLtList xs ys else pyLt x y
termination_by xs _ => (sizeOf xs, 2)
end

/-- Python `str()` restricted to the scalar values the query layer stringifies
(`contains` filtering): `None`, booleans, ints and strings.  `str()` of floats
(IEEE shortest repr) and of containers (recursive `repr`) is not modelled;
callers treat `none` as an unmodelled case and signal an explicit error
instead of guessing. -/
def pyStrScalar? : PyVal → Option String
  | .vnone => some "None"
  | .vbool true => some "True"
  | .vbool false => some "False"
  | .vint n => some (toString n)
  | .vstr s => some s
  | _ => none

/-! ### Records and nested field access -/

/-- A NaturalDB record: `entities.Record` (an id plus an insertion-ordered
`data` dict).  The id sanitization of `Record.__post_init__` is applied by
the storage-facing constructions, not baked into the structure. -/
structure Record where
  id : String
  data : List (String × PyVal)

/-- Python `dict.get(key)` on the embedded dict (missing key gives `None`). -/
def dictGet (d : List (String × PyVal)) (k : String) : PyVal :=
  match d.find? (fun kv => kv.1 == k) with
  | some kv => kv.2
  | none => .vnone

/-- Python `d[key] = value` on the embedded insertion-ordered dict: an
existing key keeps its position and gets the new value, a new key is appended
at the end. -/
def dictSet (d : List (String × PyVal)) (k : String) (v : PyVal) :
    List (String × PyVal) :=
  match d with
  | [] => [(k, v)]
  | (k2, v2) :: rest =>
    if k2 == k then (k2, v) :: rest else (k2, v2) :: dictSet rest k v

/-- The walk of `QueryOperations._get_nested_field` for dotted paths: follow
each part through nested dicts; a missing key or a non-dict intermediate
yields `None`. -/
def getNestedParts : PyVal → List String → PyVal
  | v, [] => v
  | .vdict d, p :: ps =>
    match d.find? (fun kv => kv.1 == p) with
    | some kv => getNestedParts kv.2 ps
    | none => .vnone
  | _, _ :: _ => .vnone

/-- `QueryOperations._get_nested_field` (also
`JoinOperations._get_nested_field_static`, which is textually identical):
without a dot the whole path is used as a literal key via `dict.get`;
otherwise the dot-separated parts are walked. -/
def getNestedField (data : List (String × PyVal)) (path : String) : PyVal :=
  if strContainsChar '.' path then getNestedParts (.vdict data) (strSplitOnChar '.' path)
  else dictGet data path

/-! ### QueryOperations: filtering -/

/-- The inner `condition` closure of `QueryOperations.filter_by_field`: look
the (possibly dotted) field up, then dispatch on the operator string.  Python
`a > b` is embedded as `pyLt b a`, and `a >= b` / `a <= b` as the negations of
the strict comparisons in the opposite direction, which agrees with Python on
the embedded domain (numbers, strings, lists) including which pairs raise
`TypeError`. -/
def fbCondition (fieldName : String) (value : PyVal) (op : String) (r : Record) :
    Except String Bool :=
  let fv := getNestedField r.data fieldName
  match op with
  | "eq" => .ok (pyEq fv value)
  | "ne" => .ok (!pyEq fv value)
  | "gt" => pyLt value fv
  | "gte" => (pyLt fv value).map (!·)
  | "lt" => pyLt fv value
  | "lte" => (pyLt value fv).map (!·)
  | "contains" =>
    match pyStrScalar? fv with
    | none => .error "unmodelled: str() of float or container values"
    | some s =>
      match value with
      | .vstr vs => .ok (listHasInfix s.toList vs.toList)
      | _ => .error "TypeError: string membership needs a string left operand"
  | _ => .error ("ValueError: Unsupported operator: " ++ op)

/-- `QueryOperations.filter` as used by `filter_by_field`: a list
comprehension evaluating the condition left to right; the first exception
escapes. -/
def filterE : List Record → (Record → Except String Bool) → Except String (List Record)
  | [], _ => .ok []
  | r :: rs, c => do
    let b ← c r
    let rest ← filterE rs c
    pure (if b then r :: rest else rest)

/-- `QueryOperations.filter_by_field`. -/
def filterByField (records : List Record) (fieldName : String) (value : PyVal)
    (op : String) : Except String (List Record) :=
  filterE records (fbCondition fieldName value op)

/-! ### QueryOperations: sorting -/

/-- The `sort_key` closure of `QueryOperations.sort`: the Python tuple
`(value is None, value)`. -/
def sortKey (fieldName : String) (r : Record) : Bool × PyVal :=
  let v := getNestedField r.data fieldName
  (v.isNone, v)

/-- Python `<` on the `(bool, value)` key tuples: tuple comparison finds the
first component where the two differ under `==` and compares it with `<`
(`False < True` on the bool); all-equal tuples are not `<`.  Both `None`
values compare equal in the first differing-component search, so `None` keys
never reach an ordering comparison against each other. -/
def keyLt (a b : Bool × PyVal) : Except String Bool :=
  if a.1 != b.1 then .ok (!a.1 && b.1)
  else if pyEq a.2 b.2 then .ok false
  else pyLt a.2 b.2

/-- Stable insertion into an already-sorted list: `x` (the earlier element)
passes over exactly the elements `y` with `pass y x = true` and lands before
the first other one, so equal keys keep their original order. -/
def insertPass (pass : α → α → Except String Bool) (x : α) :
    List α → Except String (List α)
  | [] => .ok [x]
  | y :: ys => do
    if (← pass y x) then
      let rest ← insertPass pass x ys
      pure (y :: rest)
    else
      pure (x :: y :: ys)

/-- Stable sort by insertion (Python's `sorted` is documented stable; on
inputs whose keys are totally comparable this computes the same list, and an
incomparable pair surfaces as the same `TypeError` the Python sort raises,
though possibly from a different comparison order). -/
def sortByPass (pass : α → α → Except String Bool) : List α → Except String (List α)
  | [] => .ok []
  | x :: xs => do
    let rest ← sortByPass pass xs
    insertPass pass x rest

/-- `QueryOperations.sort`: stable sort on `(value is None, value)`, with
`reverse=not ascending`.  Ascending inserts an element after the keys below
it; descending (Python's stable `reverse=True`) after the keys above it. -/
def sortRecords (records : List Record) (fieldName : String) (ascending : Bool) :
    Except String (List Record) :=
  sortByPass
    (fun y x =>
      if ascending then keyLt (sortKey fieldName y) (sortKey fieldName x)
      else keyLt (sortKey fieldName x) (sortKey fieldName y))
    records

/-! ### QueryOperations: limiting -/

/-- Normalize a Python slice endpoint against a length: negative indices count
from the end, then clamp into `[0, n]`. -/
def sliceNorm (n : Nat) (i : Int) : Nat :=
  let j := if i < 0 then i + n else i
  if j < 0 then 0 else min j.toNat n

/-- Python `xs[a:b]`. -/
def pySlice (xs : List α) (a b : Int) : List α :=
  (xs.take (sliceNorm xs.length b)).drop (sliceNorm xs.length a)

/-- Python `xs[a:]`. -/
def pySliceFrom (xs : List α) (a : Int) : List α :=
  xs.drop (sliceNorm xs.length a)

/-- `QueryOperations.limit`: `records[offset : offset + count]`. -/
def limitRecords (records : List Record) (count : Int) (offset : Int) : List Record :=
  pySlice records offset (offset + count)

/-! ### QueryOperations: aggregation -/

/-- The value-collection loop of `QueryOperations.aggregate`: the looked-up
values of the field, in record order, skipping exactly the `None` ones. -/
def aggValues (fieldName : String) : List Record → List PyVal
  | [] => []
  | r :: rs =>
    let v := getNestedField r.data fieldName
    if v.isNone then aggValues fieldName rs else v :: aggValues fieldName rs

/-- Python `+` restricted to numbers (the only case `sum` needs; lists and
strings never reach it because `sum` starts from int `0`).  Int-ness is
preserved: int/bool plus int/bool is an int, anything with a float is a
float. -/
def pyAdd (a b : PyVal) : Except String PyVal :=
  match a.toNum?, b.toNum? with
  | some x, some y =>
    match a, b with
    | .vfloat _, _ => .ok (.vfloat (x + y))
    | _, .vfloat _ => .ok (.vfloat (x + y))
    | _, _ => .ok (.vint ((x + y).num))
  | _, _ => .error "TypeError: unsupported operand type for +"

/-- Python `sum(values)`: fold `+` over the list starting from int `0`. -/
def pySum (values : List PyVal) : Except String PyVal :=
  values.foldlM pyAdd (.vint 0)

/-- Python `min(values)`: scan with `<`, keeping the first minimum. -/
def pyMin : List PyVal → Except String PyVal
  | [] => .error "ValueError: min() arg is an empty sequence"
  | v :: vs => vs.foldlM (fun acc w => do
      if (← pyLt w acc) then pure w else pure acc) v

/-- Python `max(values)`: scan with `>`, keeping the first maximum. -/
def pyMax : List PyVal → Except String PyVal
  | [] => .error "ValueError: max() arg is an empty sequence"
  | v :: vs => vs.foldlM (fun acc w => do
      if (← pyLt acc w) then pure w else pure acc) v

/-- `QueryOperations.aggregate`.  `.ok none` is Python's `return None`; note
that the source returns `None` for an empty record list before looking at the
operation, so even `count` gives `None` there.  `avg` is Python true
division, which always produces a float (embedded exactly; IEEE rounding of
the quotient is immaterial to the claims settled here). -/
def aggregate (records : List Record) (fieldName : String) (operation : String) :
    Except String (Option PyVal) :=
  if records.isEmpty then .ok none
  else if operation == "count" then .ok (some (.vint records.length))
  else
    let values := aggValues fieldName records
    if values.isEmpty then .ok none
    else
      match operation with
      | "sum" => (pySum values).map some
      | "avg" => do
        let s ← pySum values
        match s.toNum? with
        | some q => pure (some (.vfloat (q / values.length)))
        | none => .error "TypeError: unsupported operand type for +"
      | "min" => (pyMin values).map some
      | "max" => (pyMax values).map some
      | _ => .error ("ValueError: Unsupported aggregation operation: " ++ operation)

/-! ### JoinOperations -/

/-- One merged join row: left fields then right fields, each key prepended
with its side's prefix, assigned left to right into a fresh dict (a later
colliding key overwrites in place, as Python dict assignment does). -/
def mergeRow (lpfx : String) (l : Record) (rpfx : String) (r : Record) :
    List (String × PyVal) :=
  let base := l.data.foldl (fun acc kv => dictSet acc (lpfx ++ kv.1) kv.2) []
  r.data.foldl (fun acc kv => dictSet acc (rpfx ++ kv.1) kv.2) base

/-- The row a left join emits for an unmatched left record: only the
(prefixed) left fields. -/
def leftOnlyRow (lpfx : String) (l : Record) : List (String × PyVal) :=
  l.data.foldl (fun acc kv => dictSet acc (lpfx ++ kv.1) kv.2) []

/-- One step of building `right_lookup`: append the record to the bucket of
the first `pyEq`-equal key (Python dict lookup is hash-plus-`==`; the first
inserted key object is kept), or append a fresh bucket at the end. -/
def bucketAdd (lk : List (PyVal × List Record)) (v : PyVal) (r : Record) :
    List (PyVal × List Record) :=
  match lk with
  | [] => [(v, [r])]
  | (k, rs) :: rest =>
    if pyEq v k then (k, rs ++ [r]) :: rest else (k, rs) :: bucketAdd rest v r

/-- The `right_lookup` construction shared by `inner_join` and `left_join`:
group the right records by their join-field value, in order; an unhashable
value (list/dict) raises `TypeError` when used as a dict key. -/
def buildLookup (rightField : String) : List Record →
    List (PyVal × List Record) → Except String (List (PyVal × List Record))
  | [], acc => .ok acc
  | r :: rs, acc =>
    let v := getNestedField r.data rightField
    if pyHashable v then buildLookup rightField rs (bucketAdd acc v r)
    else .error "TypeError: unhashable type"

/-- Python `left_value in right_lookup` plus indexing: the bucket of the
first `pyEq`-equal key, if any. -/
def bucketFind (lk : List (PyVal × List Record)) (v : PyVal) : Option (List Record) :=
  (lk.find? (fun kv => pyEq v kv.1)).map (fun kv => kv.2)

/-- The per-left-record loop of `JoinOperations.inner_join`: hashing the left
value can raise `TypeError`; a missing bucket contributes no rows. -/
def innerRows (lk : List (PyVal × List Record)) (leftField lpfx rpfx : String) :
    List Record → Except String (List (List (String × PyVal)))
  | [] => .ok []
  | l :: ls => do
    let v := getNestedField l.data leftField
    if pyHashable v then
      let rows :=
        match bucketFind lk v with
        | some rs => rs.map (fun r => mergeRow lpfx l rpfx r)
        | none => []
      let rest ← innerRows lk leftField lpfx rpfx ls
      pure (rows ++ rest)
    else .error "TypeError: unhashable type"

/-- `JoinOperations.inner_join`. -/
def innerJoin (left right : List Record) (leftField rightField lpfx rpfx : String) :
    Except String (List (List (String × PyVal))) := do
  let lk ← buildLookup rightField right []
  innerRows lk leftField lpfx rpfx left

/-- The per-left-record loop of `JoinOperations.left_join`: like the inner
one, but a left record whose value has no bucket emits its left-only row. -/
def leftRows (lk : List (PyVal × List Record)) (leftField lpfx rpfx : String) :
    List Record → Except String (List (List (String × PyVal)))
  | [] => .ok []
  | l :: ls => do
    let v := getNestedField l.data leftField
    if pyHashable v then
      let rows :=
        match bucketFind lk v with
        | some rs => rs.map (fun r => mergeRow lpfx l rpfx r)
        | none => [leftOnlyRow lpfx l]
      let rest ← leftRows lk leftField lpfx rpfx ls
      pure (rows ++ rest)
    else .error "TypeError: unhashable type"

/-- `JoinOperations.left_join`. -/
def leftJoin (left right : List Record) (leftField rightField lpfx rpfx : String) :
    Except String (List (List (String × PyVal))) := do
  let lk ← buildLookup rightField right []
  leftRows lk leftField lpfx rpfx left

/-- The right records matching one left record, in right-table order — the
specification-side description of a hash-join bucket. -/
def joinMatches (right : List Record) (leftField rightField : String) (l : Record) :
    List Record :=
  right.filter (fun r => pyEq (getNestedField l.data leftField) (getNestedField r.data rightField))

/-- Specification-side inner join: one merged row per matching pair `(l, r)`,
ordered by the left table and, within one left record, by the right table. -/
def innerJoinSpec (left right : List Record) (leftField rightField lpfx rpfx : String) :
    List (List (String × PyVal)) :=
  left.flatMap (fun l => (joinMatches right leftField rightField l).map
    (fun r => mergeRow lpfx l rpfx r))

/-- Specification-side left join: the inner rows, plus exactly one left-only
row for each left record with no match. -/
def leftJoinSpec (left right : List Record) (leftField rightField lpfx rpfx : String) :
    List (List (String × PyVal)) :=
  left.flatMap (fun l =>
    match joinMatches right leftField rightField l with
    | [] => [leftOnlyRow lpfx l]
    | ms => ms.map (fun r => mergeRow lpfx l rpfx r))

/-! ### The chainable query builder -/

/-- `operations.TableQuery`: the builder wraps one mutable record list.  Its
fluent methods assign `self._records` and `return self`; a method call is
embedded as the state the receiver (and the returned alias) holds after the
call. -/
structure TableQuery where
  records : List Record

/-- `TableQuery.filter_by`: `self._records = filter_by_field(...)`, then
`return self` — the receiver and the result are one object holding the
filtered list. -/
def TableQuery.filterBy (q : TableQuery) (fieldName : String) (value : PyVal)
    (op : String) : Except String TableQuery :=
  (filterByField q.records fieldName value op).map TableQuery.mk

/-- `TableQuery.where`: alias for `filter_by`. -/
def TableQuery.where' (q : TableQuery) (fieldName : String) (value : PyVal)
    (op : String) : Except String TableQuery :=
  q.filterBy fieldName value op

/-- `TableQuery.sort`: `self._records = QueryOperations.sort(...)`, then
`return self`. -/
def TableQuery.sortB (q : TableQuery) (fieldName : String) (ascending : Bool) :
    Except String TableQuery :=
  (sortRecords q.records fieldName ascending).map TableQuery.mk

/-- `TableQuery.order_by`: alias for `sort`. -/
def TableQuery.orderBy (q : TableQuery) (fieldName : String) (ascending : Bool) :
    Except String TableQuery :=
  q.sortB fieldName ascending

/-- `TableQuery.limit`: `self._records = QueryOperations.limit(...)`, then
`return self`. -/
def TableQuery.limitB (q : TableQuery) (count : Int) (offset : Int) : TableQuery :=
  TableQuery.mk (limitRecords q.records count offset)

/-- `TableQuery.skip`: `self._records = self._records[offset:]`, then
`return self`. -/
def TableQuery.skipB (q : TableQuery) (offset : Int) : TableQuery :=
  TableQuery.mk (pySliceFrom q.records offset)

/-- `TableQuery.all` (and `execute`): the wrapped record list. -/
def TableQuery.all (q : TableQuery) : List Record :=
  q.records

/-- `TableQuery.count`. -/
def TableQuery.count (q : TableQuery) : Nat :=
  q.records.length

/-- `TableQuery.first`. -/
def TableQuery.first (q : TableQuery) : Option Record :=
  q.records.head?

/-! ### Sanitization -/

/-- The character class of `re.sub(r'[^a-zA-Z0-9._-]', '_', ...)` in
`path_utils.sanitize_path_component` (ASCII alphanumerics, dot, underscore,
hyphen). -/
def spcAllowed (c : Char) : Bool :=
  c.isAlphanum || c == '.' || c == '_' || c == '-'

/-- Characters removed from both ends by `.strip('._')`. -/
def spcStripChar (c : Char) : Bool :=
  c == '.' || c == '_'

/-- Python `s.strip('._')` on a character list: drop the leading and trailing
runs of dots and underscores. -/
def stripDotsUnders (cs : List Char) : List Char :=
  (cs.dropWhile spcStripChar).rdropWhile spcStripChar

/-- The reserved Windows device names guarded by `sanitize_path_component`. -/
def spcReserved : List String :=
  ["con", "prn", "aux", "nul",
   "com1", "com2", "com3", "com4", "com5", "com6", "com7", "com8", "com9",
   "lpt1", "lpt2", "lpt3", "lpt4", "lpt5", "lpt6", "lpt7", "lpt8", "lpt9"]

/-- Stage 1 of `sanitize_path_component`:
`re.sub(r'[^a-zA-Z0-9._-]', '_', component)`. -/
def spcStep1 (s : String) : List Char :=
  s.toList.map (fun c => if spcAllowed c then c else '_')

/-- Stages 2–3 of `sanitize_path_component`: `.strip('._')`, then
`"unnamed"` if that emptied the name. -/
def spcCore (s : String) : List Char :=
  if (stripDotsUnders (spcStep1 s)).isEmpty then "unnamed".toList
  else stripDotsUnders (spcStep1 s)

/-- `path_utils.sanitize_path_component`: replace every character outside
`[a-zA-Z0-9._-]` with `_`, strip leading/trailing dots and underscores,
substitute `"unnamed"` for an empty result, and wrap a reserved device name in
underscores. -/
def sanitizePathComponent (s : String) : String :=
  if spcReserved.contains (String.mk ((spcCore s).map Char.toLower)) then
    String.mk ('_' :: spcCore s ++ ['_'])
  else
    String.mk (spcCore s)

/-- Modelled from the spec: `sanitize_name` is called by
`entities._check_and_sanitize` and `storage_system/storage.py`
(`from ..utils import sanitize_name`), but no module under src/ defines it.
Spec section 4.1: "retains only alphanumeric characters, spaces, underscores,
and hyphens; strips everything else" (ASCII alphanumerics here). -/
def sanitizeName (s : String) : String :=
  String.mk (s.toList.filter (fun c => c.isAlphanum || c == ' ' || c == '_' || c == '-'))

/-- `entities._check_and_sanitize`: sanitize, then truncate to
`MAX_NAME_LENGTH = 80` characters (the logging side effects are ignored). -/
def checkAndSanitize (s : String) : String :=
  let t := sanitizeName s
  if t.length > 80 then String.mk (t.toList.take 80) else t

/-! ### The custom JSON codec -/

/-- Lowercase hex digit. -/
def hexDigitChar (n : Nat) : Char :=
  if n < 10 then Char.ofNat (48 + n) else Char.ofNat (87 + n)

/-- The `\u00xx` escape `_JSONStringBuilder._build_string` emits for control
characters: four lowercase hex digits. -/
def hex4 (n : Nat) : List Char :=
  [hexDigitChar (n / 4096 % 16), hexDigitChar (n / 256 % 16),
   hexDigitChar (n / 16 % 16), hexDigitChar (n % 16)]

/-- Per-character escaping of `_JSONStringBuilder._build_string`. -/
def escChar (c : Char) : List Char :=
  if c == '"' then ['\\', '"']
  else if c == '\\' then ['\\', '\\']
  else if c == Char.ofNat 8 then ['\\', 'b']
  else if c == Char.ofNat 12 then ['\\', 'f']
  else if c == '\n' then ['\\', 'n']
  else if c == '\r' then ['\\', 'r']
  else if c == '\t' then ['\\', 't']
  else if c.toNat < 32 then '\\' :: 'u' :: hex4 c.toNat
  else [c]

/-- `_JSONStringBuilder._build_string`: quote and escape. -/
def buildJString (s : String) : String :=
  String.mk ('"' :: s.toList.flatMap escChar ++ ['"'])

/-- `' ' * n` with Python semantics (zero or negative width gives the empty
string). -/
def spaces (n : Int) : String :=
  if n ≤ 0 then "" else String.mk (List.replicate n.toNat ' ')

/-- Work items of the serializer: one value at a depth, or the rendering of
the remaining array items / object fields at a depth. -/
inductive BJob where
  | value : PyVal → Nat → BJob
  | items : List PyVal → Nat → BJob
  | fields : List (String × PyVal) → Nat → BJob

/-- `_JSONStringBuilder._build_value` and its array/object helpers, as one
fuel-indexed function (the fuel only bounds recursion depth; `serialBudget`
below is enough for every value this development serializes, so running out
of fuel is an internal error, not source behaviour).  Compact mode joins with
`,`/`:`; indented mode pretty-prints exactly as the source does.  `str()` of a
float is Python's IEEE shortest repr and is not modelled: serializing a float
signals an explicit unmodelled-case error. -/
def buildF (indent : Option Int) : Nat → BJob → Except String String
  | 0, _ => .error "internal: serializer fuel exhausted"
  | fuel + 1, .value v depth =>
    match v with
    | .vnone => .ok "null"
    | .vbool true => .ok "true"
    | .vbool false => .ok "false"
    | .vstr s => .ok (buildJString s)
    | .vint n => .ok (toString n)
    | .vfloat _ => .error "unmodelled: str() of a Python float"
    | .vlist arr =>
      match arr with
      | [] => .ok "[]"
      | _ => do
        let body ← buildF indent fuel (.items arr depth)
        match indent with
        | none => pure ("[" ++ body ++ "]")
        | some i => pure ("[\n" ++ body ++ "\n" ++ spaces (depth * i) ++ "]")
    | .vdict kvs =>
      match kvs with
      | [] => .ok "\x7b\x7d"
      | _ => do
        let body ← buildF indent fuel (.fields kvs depth)
        match indent with
        | none => pure ("\x7b" ++ body ++ "\x7d")
        | some i => pure ("\x7b\n" ++ body ++ "\n" ++ spaces (depth * i) ++ "\x7d")
  | fuel + 1, .items arr depth => do
    match arr with
    | [] => pure ""
    | [v] =>
      match indent with
      | none => buildF indent fuel (.value v depth)
      | some i => do
        let s ← buildF indent fuel (.value v (depth + 1))
        pure (spaces ((depth + 1) * i) ++ s)
    | v :: rest => do
      let s ←
        match indent with
        | none => buildF indent fuel (.value v depth)
        | some i => do
          let s ← buildF indent fuel (.value v (depth + 1))
          pure (spaces ((depth + 1) * i) ++ s)
      let tail ← buildF indent fuel (.items rest depth)
      match indent with
      | none => pure (s ++ "," ++ tail)
      | some _ => pure (s ++ ",\n" ++ tail)
  | fuel + 1, .fields kvs depth => do
    match kvs with
    | [] => pure ""
    | [(k, v)] =>
      match indent with
      | none => do
        let s ← buildF indent fuel (.value v depth)
        pure (buildJString k ++ ":" ++ s)
      | some i => do
        let s ← buildF indent fuel (.value v (depth + 1))
        pure (spaces ((depth + 1) * i) ++ buildJString k ++ ": " ++ s)
    | (k, v) :: rest => do
      let s ←
        match indent with
        | none => do
          let s ← buildF indent fuel (.value v depth)
          pure (buildJString k ++ ":" ++ s)
        | some i => do
          let s ← buildF indent fuel (.value v (depth + 1))
          pure (spaces ((depth + 1) * i) ++ buildJString k ++ ": " ++ s)
      let tail ← buildF indent fuel (.fields rest depth)
      match indent with
      | none => pure (s ++ "," ++ tail)
      | some _ => pure (s ++ ",\n" ++ tail)

/-- Serializer fuel: enough for every value serialized in this development
(two fuel levels per nesting level). -/
def serialBudget : Nat := 2000

/-- `JSONParser.to_json_string`. -/
def toJsonString (v : PyVal) (indent : Option Int) : Except String String :=
  buildF indent serialBudget (.value v 0)

/-- `_JSONStringParser._skip_whitespace`: the characters of `' \t\n\r'`. -/
def skipWsL (cs : List Char) : List Char :=
  cs.dropWhile (fun c => c == ' ' || c == '\t' || c == '\n' || c == '\r')

/-- Python `str.strip()` whitespace (ASCII; exotic Unicode spaces are not
modelled and never occur in the inputs evaluated here). -/
def isPyWs (c : Char) : Bool :=
  c == ' ' || c == '\t' || c == '\n' || c == '\r' || c == Char.ofNat 11 || c == Char.ofNat 12

/-- Python `str.strip()` on a character list. -/
def stripPyWs (cs : List Char) : List Char :=
  ((cs.dropWhile isPyWs).reverse.dropWhile isPyWs).reverse

/-- Strict hexadecimal digit value (`int(x, 16)`'s tolerance for signs,
spaces and underscores inside a `\uXXXX` escape is not modelled). -/
def hexVal? (c : Char) : Option Nat :=
  if '0' ≤ c && c ≤ '9' then some (c.toNat - 48)
  else if 'a' ≤ c && c ≤ 'f' then some (c.toNat - 87)
  else if 'A' ≤ c && c ≤ 'F' then some (c.toNat - 55)
  else none

/-- The string-body loop of `_JSONStringParser._parse_string` (after the
opening quote): returns the decoded characters and the input after the
closing quote.  A `\uXXXX` escape designating a surrogate code point (which
Python's `chr` happily builds) has no `Char` counterpart and is reported as an
explicit unmodelled case. -/
def parseJStrBody : List Char → Except String (List Char × List Char)
  | [] => .error "Unterminated string"
  | c :: t =>
    if c == '"' then .ok ([], t)
    else if c == '\\' then
      match t with
      | [] => .error "Unexpected end of string"
      | e :: t2 =>
        if e == '"' then (parseJStrBody t2).map (fun p => ('"' :: p.1, p.2))
        else if e == '\\' then (parseJStrBody t2).map (fun p => ('\\' :: p.1, p.2))
        else if e == '/' then (parseJStrBody t2).map (fun p => ('/' :: p.1, p.2))
        else if e == 'b' then (parseJStrBody t2).map (fun p => (Char.ofNat 8 :: p.1, p.2))
        else if e == 'f' then (parseJStrBody t2).map (fun p => (Char.ofNat 12 :: p.1, p.2))
        else if e == 'n' then (parseJStrBody t2).map (fun p => ('\n' :: p.1, p.2))
        else if e == 'r' then (parseJStrBody t2).map (fun p => ('\r' :: p.1, p.2))
        else if e == 't' then (parseJStrBody t2).map (fun p => ('\t' :: p.1, p.2))
        else if e == 'u' then
          match t2 with
          | h1 :: h2 :: h3 :: h4 :: t3 =>
            match hexVal? h1, hexVal? h2, hexVal? h3, hexVal? h4 with
            | some a, some b, some c2, some d =>
              let cp := ((a * 16 + b) * 16 + c2) * 16 + d
              if cp < 55296 || 57343 < cp then
                (parseJStrBody t3).map (fun p => (Char.ofNat cp :: p.1, p.2))
              else .error "unmodelled: unicode escape to a surrogate code point"
            | _, _, _, _ => .error "Invalid unicode escape"
          | _ => .error "Invalid unicode escape"
        else .error "Invalid escape sequence"
    else (parseJStrBody t).map (fun p => (c :: p.1, p.2))

/-- `_JSONStringParser._parse_string`: opening quote, body, closing quote. -/
def parseJString (cs : List Char) : Except String (String × List Char) :=
  match cs with
  | '"' :: t => (parseJStrBody t).map (fun p => (String.mk p.1, p.2))
  | _ => .error "Expected opening quote"

/-- Leading run of ASCII digits (`str.isdigit` is Unicode-aware in Python,
but every input evaluated here is ASCII). -/
def takeDigitsL : List Char → List Char × List Char
  | [] => ([], [])
  | c :: cs =>
    if c.isDigit then
      let (ds, r) := takeDigitsL cs
      (c :: ds, r)
    else ([], c :: cs)

/-- Decimal digits to a natural number. -/
def digitsToNat (ds : List Char) : Nat :=
  ds.foldl (fun acc c => acc * 10 + (c.toNat - 48)) 0

/-- The exact rational value of a JSON number literal
`[-] intDs [. fracDs] [e[±] expDs]`.  `_parse_number` feeds the literal to
Python's `float(...)`, whose IEEE-754 correct rounding (and overflow to
infinity) is not modelled: the exact value stands in, and no claim settled
through this definition depends on the difference. -/
def ratOfNumber (neg : Bool) (intDs fracDs : List Char) (expNeg : Bool)
    (expDs : List Char) : ℚ :=
  let base : ℚ := (digitsToNat (intDs ++ fracDs) : ℚ) / (10 : ℚ) ^ fracDs.length
  let e := digitsToNat expDs
  let scaled := if expNeg then base / (10 : ℚ) ^ e else base * (10 : ℚ) ^ e
  if neg then -scaled else scaled

/-- The exponent-part scan of `_parse_number`, and assembly of the result
value (`int(...)` for integer literals, `float(...)` otherwise). -/
def parseNumberTail (neg : Bool) (intDs fracDs : List Char) (isFloat : Bool)
    (cs : List Char) : Except String (PyVal × List Char) :=
  match cs with
  | e :: t =>
    if e == 'e' || e == 'E' then
      let (expNeg, t2) :=
        match t with
        | '+' :: t2 => (false, t2)
        | '-' :: t2 => (true, t2)
        | _ => (false, t)
      let (eds, r) := takeDigitsL t2
      if eds.isEmpty then .error "Invalid number format"
      else .ok (.vfloat (ratOfNumber neg intDs fracDs expNeg eds), r)
    else
      if isFloat then .ok (.vfloat (ratOfNumber neg intDs fracDs false []), cs)
      else
        let n : Int := digitsToNat intDs
        .ok (.vint (if neg then -n else n), cs)
  | [] =>
    if isFloat then .ok (.vfloat (ratOfNumber neg intDs fracDs false []), [])
    else
      let n : Int := digitsToNat intDs
      .ok (.vint (if neg then -n else n), [])

/-- `_JSONStringParser._parse_number`: optional minus, integer part (a lone
`0` or a nonzero-led digit run), optional fraction, optional exponent. -/
def parseNumber (cs : List Char) : Except String (PyVal × List Char) :=
  let (neg, cs1) :=
    match cs with
    | '-' :: t => (true, t)
    | _ => (false, cs)
  match cs1 with
  | [] => .error "Invalid number format"
  | c :: t =>
    if !c.isDigit then .error "Invalid number format"
    else
      let (intDs, r1) := if c == '0' then (['0'], t) else takeDigitsL cs1
      match r1 with
      | '.' :: r2 =>
        let (fds, r3) := takeDigitsL r2
        if fds.isEmpty then .error "Invalid number format"
        else parseNumberTail neg intDs fds true r3
      | _ => parseNumberTail neg intDs [] false r1

/-- `_JSONStringParser._parse_literal`. -/
def parseLiteral (lit : String) (v : PyVal) (cs : List Char) :
    Except String (PyVal × List Char) :=
  if listStartsWith cs lit.toList then .ok (v, cs.drop lit.length)
  else .error ("Expected literal " ++ lit)

/-- Work items of the recursive-descent parser: a value, or the key/value
loop of `_parse_object` (with the dict built so far), or the item loop of
`_parse_array`. -/
inductive PJob where
  | value : PJob
  | objBody : List (String × PyVal) → PJob
  | arrBody : List PyVal → PJob

/-- `_JSONStringParser._parse_value` / `_parse_object` / `_parse_array` as
one fuel-indexed function on the remaining input (the fuel only bounds the
recursion; `parseString` passes enough for any input of its length).  The
object loop performs Python's `result[key] = value`, so a repeated key keeps
its first position and takes the value of its last occurrence. -/
def parseF (indentFuel : Nat) (job : PJob) (cs : List Char) :
    Except String (PyVal × List Char) :=
  match indentFuel with
  | 0 => .error "internal: parser fuel exhausted"
  | fuel + 1 =>
    match job with
    | .value =>
      let cs := skipWsL cs
      match cs with
      | [] => .error "Unexpected end of JSON"
      | c :: rest =>
        if c == '"' then (parseJString cs).map (fun p => (.vstr p.1, p.2))
        else if c == Char.ofNat 123 then
          let t := skipWsL rest
          match t with
          | c2 :: t2 =>
            if c2 == Char.ofNat 125 then .ok (.vdict [], t2)
            else parseF fuel (.objBody []) t
          | [] => parseF fuel (.objBody []) t
        else if c == '[' then
          let t := skipWsL rest
          match t with
          | c2 :: t2 =>
            if c2 == ']' then .ok (.vlist [], t2)
            else parseF fuel (.arrBody []) t
          | [] => parseF fuel (.arrBody []) t
        else if c == '-' || c.isDigit then parseNumber cs
        else if c == 't' then parseLiteral "true" (.vbool true) cs
        else if c == 'f' then parseLiteral "false" (.vbool false) cs
        else if c == 'n' then parseLiteral "null" .vnone cs
        else .error "Unexpected character"
    | .objBody acc =>
      let cs := skipWsL cs
      match cs with
      | [] => .error "Expected string key in object"
      | c :: _ =>
        if c != '"' then .error "Expected string key in object"
        else do
          let (key, r1) ← parseJString cs
          let r2 := skipWsL r1
          match r2 with
          | ':' :: r3 => do
            let (v, r4) ← parseF fuel .value r3
            let acc' := dictSet acc key v
            let r5 := skipWsL r4
            match r5 with
            | [] => .error "Unterminated object"
            | c2 :: r6 =>
              if c2 == Char.ofNat 125 then .ok (.vdict acc', r6)
              else if c2 == ',' then parseF fuel (.objBody acc') r6
              else .error "Expected comma or closing brace in object"
          | _ => .error "Expected colon after object key"
    | .arrBody acc => do
      let (v, r1) ← parseF fuel .value cs
      let acc' := acc ++ [v]
      let r2 := skipWsL r1
      match r2 with
      | [] => .error "Unterminated array"
      | c :: r3 =>
        if c == ']' then .ok (.vlist acc', r3)
        else if c == ',' then parseF fuel (.arrBody acc') r3
        else .error "Expected comma or closing bracket in array"

/-- `JSONParser.parse_string`: strip, reject empty input, parse one value,
reject trailing non-whitespace. -/
def parseString (s : String) : Except String PyVal :=
  let t := stripPyWs s.toList
  if t.isEmpty then .error "Empty JSON string"
  else
    match parseF (8 * (t.length + 2)) .value t with
    | .error e => .error e
    | .ok (v, rest) =>
      if (skipWsL rest).isEmpty then .ok v
      else .error "Unexpected character after JSON value"

/-! ### Filesystem state and the query-engine facade -/

/-- The filesystem as the storage layer sees it: a set of directories and a
map from file paths to contents (both as association lists).  Lock
acquisition around each operation is not modelled (single-threaded
semantics). -/
structure FSState where
  dirs : List String
  files : List (String × String)
deriving Repr, DecidableEq

/-- `os.path.exists`: true for a directory or a file at the path. -/
def fsExists (st : FSState) (p : String) : Bool :=
  st.dirs.contains p || (st.files.find? (fun f => f.1 == p)).isSome

/-- `os.path.dirname` for the slash-joined paths this storage layer builds. -/
def dirName (p : String) : String :=
  let parts := strSplitOnChar '/' p
  String.intercalate "/" parts.dropLast

/-- Every nonempty slash-prefix of a path, shortest first (the directories
`os.makedirs` creates). -/
def pathAncestors (p : String) : List String :=
  let parts := strSplitOnChar '/' p
  (List.range parts.length).map (fun i => String.intercalate "/" (parts.take (i + 1)))

/-- `FileSystem.create_folder` = `os.makedirs(path, exist_ok=True)`: record
the path and all its ancestors as directories (a path component colliding
with an existing file is not modelled; no state reached in this development
has one). -/
def fsMakedirs (st : FSState) (p : String) : FSState :=
  { st with dirs := st.dirs ++ (pathAncestors p).filter (fun q => !st.dirs.contains q) }

/-- Replace-or-append on the file map. -/
def filesSet (fs : List (String × String)) (p content : String) :
    List (String × String) :=
  match fs with
  | [] => [(p, content)]
  | (q, c) :: rest =>
    if q == p then (q, content) :: rest else (q, c) :: filesSet rest p content

/-- `FileSystem.create_file` with `recursive=False`: raise `FileSystemError`
when the parent directory does not exist, otherwise write (create or
overwrite) the file. -/
def fsCreateFile (st : FSState) (p content : String) : Except String FSState :=
  if fsExists st (dirName p) then
    .ok { st with files := filesSet st.files p content }
  else .error "FileSystemError: Parent directory does not exist"

/-- The engine context: `QueryEngine` is keyed by a user and a database
(whose names were already sanitized by their entity constructors; the base
directory is the `NATURALDB_DATA_PATH` root). -/
structure EngineCtx where
  baseDir : String
  userId : String
  dbName : String

/-- `Storage.get_path(user, database)` = the `DatabaseStorage.base_path` the
engine stores under: `sanitize_name` is applied (again, idempotently) to the
entity names. -/
def enginePath (e : EngineCtx) : String :=
  e.baseDir ++ "/" ++ sanitizeName e.userId ++ "/" ++ sanitizeName e.dbName

/-- The path of table `tableName`: `DatabaseStorage.get_table_path` on the
`Table` entity built from the name (whose constructor sanitizes and
truncates it). -/
def tablePath (e : EngineCtx) (tableName : String) : String :=
  enginePath e ++ "/" ++ checkAndSanitize tableName

/-- The on-disk path of record `rid` in table `tableName`
(`TableStorage`'s `base_path/<sanitize_name(record_id)>.json`). -/
def recordPath (e : EngineCtx) (tableName rid : String) : String :=
  tablePath e tableName ++ "/" ++ sanitizeName rid ++ ".json"

/-- `QueryEngine.get_table_operations`: if the table directory does not
exist, return `None`; otherwise the source executes
`QueryOperations(self.user, self.database, table)` — but
`operations.QueryOperations` is a class of static methods with no
constructor accepting arguments, so this call raises
`TypeError: QueryOperations() takes no arguments`.  The successful-instance
case is therefore uninhabited (`Empty`). -/
def getTableOperations (e : EngineCtx) (st : FSState) (tableName : String) :
    Except String (Option Empty) :=
  if fsExists st (tablePath e tableName) then
    .error "TypeError: QueryOperations() takes no arguments"
  else .ok none

/-- `QueryEngine.create_table` (facade): `DatabaseStorage.create_table`
(create the directory, then write `metadata.json` with
`{'name': ..., 'keys': None}` serialized at indent 2) wrapped in the
facade's broad `try/except` returning a boolean. -/
def qeCreateTable (e : EngineCtx) (st : FSState) (tableName : String) :
    Bool × FSState :=
  let tname := checkAndSanitize tableName
  let tpath := tablePath e tableName
  let st1 := fsMakedirs st tpath
  match toJsonString (.vdict [("name", .vstr tname), ("keys", .vnone)]) (some 2) with
  | .error _ => (false, st1)
  | .ok content =>
    match fsCreateFile st1 (tpath ++ "/metadata.json") content with
    | .error _ => (false, st1)
    | .ok st2 => (true, st2)

/-- `QueryEngine.insert`: inside the broad `try/except`, look the table
operations up (creating the table first when its directory is absent); the
second lookup then raises the `TypeError` above (or, were it to return
`None`, the subsequent `operations.table_storage` attribute access would
raise), so the except-branch returns `False` — the record file itself is
never written. -/
def qeInsert (e : EngineCtx) (st : FSState) (tableName : String) (_r : Record) :
    Bool × FSState :=
  match getTableOperations e st tableName with
  | .error _ => (false, st)
  | .ok (some h) => h.elim
  | .ok none =>
    match qeCreateTable e st tableName with
    | (false, st') => (false, st')
    | (true, st') =>
      match getTableOperations e st' tableName with
      | .error _ => (false, st')
      | .ok none => (false, st')
      | .ok (some h) => h.elim

/-- `QueryEngine.update`: inside the broad `try/except`, a `None` lookup
returns `False` directly, and an existing table makes the lookup raise the
`TypeError` above, caught into `False`; either way nothing is written. -/
def qeUpdate (e : EngineCtx) (st : FSState) (tableName : String) (_r : Record) :
    Bool × FSState :=
  match getTableOperations e st tableName with
  | .error _ => (false, st)
  | .ok none => (false, st)
  | .ok (some h) => h.elim

/-- The allowed character set named by the specification's sanitization
property: alphanumeric, space, underscore, hyphen. -/
def specSafeChar (c : Char) : Bool :=
  c.isAlphanum || c == ' ' || c == '_' || c == '-'

/-! ## Theorems -/

/-! ### C3: sanitization -/

theorem spcStep1_allowed (s : String) : ∀ c ∈ spcStep1 s, spcAllowed c = true := by
  intro c hc
  rcases List.mem_map.1 hc with ⟨a, _, rfl⟩
  by_cases h : spcAllowed a = true
  · rw [if_pos h]; exact h
  · rw [if_neg h]; decide

theorem spc_map_id {r : List Char} (hr : ∀ c ∈ r, spcAllowed c = true) :
    r.map (fun c => if spcAllowed c then c else '_') = r := by
  have : r.map (fun c => if spcAllowed c then c else '_') = r.map id :=
    List.map_congr_left (fun a ha => by rw [if_pos (hr a ha)]; rfl)
  simpa using this

theorem strip_subset (cs : List Char) : stripDotsUnders cs ⊆ cs :=
  (List.rdropWhile_prefix _ _).subset.trans (List.dropWhile_subset _)

theorem strip_dropWhile_eq_self (cs : List Char) :
    List.dropWhile spcStripChar (stripDotsUnders cs) = stripDotsUnders cs := by
  unfold stripDotsUnders
  obtain ⟨t, ht⟩ := List.rdropWhile_prefix spcStripChar (cs.dropWhile spcStripChar)
  cases hs : List.rdropWhile spcStripChar (cs.dropWhile spcStripChar) with
  | nil => rfl
  | cons c cs' =>
    rw [hs] at ht
    have ha' : cs.dropWhile spcStripChar = c :: (cs' ++ t) := by
      rw [← ht]; rfl
    have hidem : List.dropWhile spcStripChar (List.dropWhile spcStripChar cs) =
        List.dropWhile spcStripChar cs := List.dropWhile_idempotent _ _
    cases hpc : spcStripChar c with
    | true =>
      exfalso
      rw [ha', List.dropWhile_cons_of_pos hpc] at hidem
      have hle : (List.dropWhile spcStripChar (cs' ++ t)).length ≤ (cs' ++ t).length :=
        (List.dropWhile_sublist _).length_le
      have := congrArg List.length hidem
      simp only [List.length_cons] at this
      omega
    | false =>
      rw [List.dropWhile_cons_of_neg (by simp [hpc])]

theorem strip_rdropWhile_eq_self (cs : List Char) :
    List.rdropWhile spcStripChar (stripDotsUnders cs) = stripDotsUnders cs :=
  List.rdropWhile_idempotent _ _

theorem strip_of_stripped {o : List Char}
    (h1 : List.dropWhile spcStripChar o = o)
    (h2 : List.rdropWhile spcStripChar o = o) : stripDotsUnders o = o := by
  unfold stripDotsUnders
  rw [h1, h2]

theorem strip_wrap {r : List Char} (hne : r ≠ [])
    (h1 : List.dropWhile spcStripChar r = r)
    (h2 : List.rdropWhile spcStripChar r = r) :
    stripDotsUnders ('_' :: r ++ ['_']) = r := by
  unfold stripDotsUnders
  have hu : spcStripChar '_' = true := by decide
  rw [List.cons_append, List.dropWhile_cons_of_pos hu, List.dropWhile_append, h1]
  have hrf : r.isEmpty = false := by
    cases r with
    | nil => exact absurd rfl hne
    | cons a t => rfl
  rw [hrf]
  simp only [Bool.false_eq_true, if_false]
  rw [List.rdropWhile_concat_pos _ _ _ hu, h2]

/-- The intermediate `spcCore` result is nonempty, uses only allowed
characters, and is fixed by both strips. -/
theorem spcCore_props (s : String) :
    spcCore s ≠ [] ∧ (∀ c ∈ spcCore s, spcAllowed c = true) ∧
    List.dropWhile spcStripChar (spcCore s) = spcCore s ∧
    List.rdropWhile spcStripChar (spcCore s) = spcCore s := by
  unfold spcCore
  by_cases hemp : (stripDotsUnders (spcStep1 s)).isEmpty = true
  · rw [if_pos hemp]
    exact ⟨by decide, by decide, by decide, by decide⟩
  · rw [if_neg hemp]
    refine ⟨?_, ?_, strip_dropWhile_eq_self _, strip_rdropWhile_eq_self _⟩
    · intro h
      rw [h] at hemp
      exact hemp rfl
    · intro c hc
      exact spcStep1_allowed s c (strip_subset _ hc)

theorem spcCore_of_fixed {r : List Char} (hne : r ≠ [])
    (hall : ∀ c ∈ r, spcAllowed c = true)
    (hd : List.dropWhile spcStripChar r = r)
    (hr : List.rdropWhile spcStripChar r = r) :
    spcCore (String.mk r) = r := by
  unfold spcCore spcStep1
  have htl : (String.mk r).toList = r := rfl
  rw [htl, spc_map_id hall, strip_of_stripped hd hr]
  have hrf : r.isEmpty = false := by
    cases r with
    | nil => exact absurd rfl hne
    | cons a t => rfl
  rw [hrf]
  simp

theorem spcCore_of_wrap {r : List Char} (hne : r ≠ [])
    (hall : ∀ c ∈ r, spcAllowed c = true)
    (hd : List.dropWhile spcStripChar r = r)
    (hr : List.rdropWhile spcStripChar r = r) :
    spcCore (String.mk ('_' :: r ++ ['_'])) = r := by
  unfold spcCore spcStep1
  have htl : (String.mk ('_' :: r ++ ['_'])).toList = '_' :: r ++ ['_'] := rfl
  have hall' : ∀ c ∈ ('_' :: r ++ ['_']), spcAllowed c = true := by
    intro c hc
    rcases List.mem_cons.1 hc with rfl | hc
    · decide
    · rcases List.mem_append.1 hc with hc | hc
      · exact hall c hc
      · rcases List.mem_singleton.1 hc with rfl
        decide
  rw [htl, spc_map_id hall', strip_wrap hne hd hr]
  have hrf : r.isEmpty = false := by
    cases r with
    | nil => exact absurd rfl hne
    | cons a t => rfl
  rw [hrf]
  simp

/-- Idempotence of `sanitize_path_component`. -/
theorem spc_idem (s : String) :
    sanitizePathComponent (sanitizePathComponent s) = sanitizePathComponent s := by
  obtain ⟨hne, hall, hd, hr⟩ := spcCore_props s
  by_cases hres : spcReserved.contains (String.mk ((spcCore s).map Char.toLower)) = true
  · have ho : sanitizePathComponent s = String.mk ('_' :: spcCore s ++ ['_']) := by
      unfold sanitizePathComponent
      rw [if_pos hres]
    rw [ho]
    unfold sanitizePathComponent
    rw [spcCore_of_wrap hne hall hd hr, if_pos hres]
  · have ho : sanitizePathComponent s = String.mk (spcCore s) := by
      unfold sanitizePathComponent
      rw [if_neg hres]
    rw [ho]
    unfold sanitizePathComponent
    rw [spcCore_of_fixed hne hall hd hr, if_neg hres]

/-- Every character of a `sanitize_path_component` output lies in
`[a-zA-Z0-9._-]`. -/
theorem spc_charset (s : String) :
    ∀ c ∈ (sanitizePathComponent s).toList, spcAllowed c = true := by
  obtain ⟨hne, hall, hd, hr⟩ := spcCore_props s
  unfold sanitizePathComponent
  by_cases hres : spcReserved.contains (String.mk ((spcCore s).map Char.toLower)) = true
  · rw [if_pos hres]
    intro c hc
    have hc' : c ∈ ('_' :: spcCore s ++ ['_']) := hc
    rcases List.mem_cons.1 hc' with rfl | hc'
    · decide
    · rcases List.mem_append.1 hc' with hc' | hc'
      · exact hall c hc'
      · rcases List.mem_singleton.1 hc' with rfl
        decide
  · rw [if_neg hres]
    intro c hc
    exact hall c hc

theorem hasInfix_head_mem {hay : List Char} {c : Char} {p : List Char}
    (h : listHasInfix hay (c :: p) = true) : c ∈ hay := by
  induction hay with
  | nil =>
    rw [listHasInfix] at h
    simp [listStartsWith] at h
  | cons a t ih =>
    rw [listHasInfix] at h
    by_cases hs : listStartsWith (a :: t) (c :: p) = true
    · have hac : (a == c) = true := by
        rw [listStartsWith] at hs
        exact (Bool.and_eq_true _ _ |>.mp hs).1
      rcases eq_of_beq hac with rfl
      exact List.mem_cons_self a t
    · rw [if_neg hs] at h
      exact List.mem_cons_of_mem a (ih h)

theorem sanitizeName_chars {s : String} :
    ∀ c ∈ (sanitizeName s).toList, specSafeChar c = true := by
  intro c hc
  have hc' : c ∈ s.toList.filter (fun c => c.isAlphanum || c == ' ' || c == '_' || c == '-') := hc
  exact List.of_mem_filter hc'

theorem sanitizeName_of_safe {l : List Char} (h : ∀ c ∈ l, specSafeChar c = true) :
    sanitizeName (String.mk l) = String.mk l := by
  unfold sanitizeName
  exact congrArg String.mk (List.filter_eq_self.mpr (fun c hc => h c hc))

theorem sanitizeName_idem (s : String) :
    sanitizeName (sanitizeName s) = sanitizeName s := by
  have hs := sanitizeName_chars (s := s)
  unfold sanitizeName
  exact congrArg String.mk (List.filter_eq_self.mpr (fun c hc => hs c hc))

/-- Claim C3 (amended): `sanitize_path_component` is idempotent, never emits
`/`, and emits only characters in `[a-zA-Z0-9._-]` — so dots survive and `..`
can appear inside an output (see the counterexample), while the claim's
allowed set (with space, without dot) is instead satisfied by the
spec-modelled `sanitize_name`, which is idempotent and traversal-safe, as is
its truncating wrapper `_check_and_sanitize`. -/
theorem sanitize_idempotent_and_charset (s : String) :
    sanitizePathComponent (sanitizePathComponent s) = sanitizePathComponent s
    ∧ (∀ c ∈ (sanitizePathComponent s).toList, spcAllowed c = true)
    ∧ strContainsChar '/' (sanitizePathComponent s) = false
    ∧ sanitizeName (sanitizeName s) = sanitizeName s
    ∧ (∀ c ∈ (sanitizeName s).toList, specSafeChar c = true)
    ∧ listHasInfix (sanitizeName s).toList ['.', '.'] = false
    ∧ strContainsChar '/' (sanitizeName s) = false
    ∧ checkAndSanitize (checkAndSanitize s) = checkAndSanitize s := by
  refine ⟨spc_idem s, spc_charset s, ?_, sanitizeName_idem s, sanitizeName_chars, ?_, ?_, ?_⟩
  · show ((sanitizePathComponent s).toList.contains '/') = false
    rw [Bool.eq_false_iff]
    intro hcont
    have hmem : '/' ∈ (sanitizePathComponent s).toList := List.mem_of_elem_eq_true hcont
    have h := spc_charset s _ hmem
    simp [spcAllowed] at h
  · rw [Bool.eq_false_iff]
    intro h
    have h2 := sanitizeName_chars _ (hasInfix_head_mem h)
    simp [specSafeChar] at h2
  · show ((sanitizeName s).toList.contains '/') = false
    rw [Bool.eq_false_iff]
    intro hcont
    have hmem : '/' ∈ (sanitizeName s).toList := List.mem_of_elem_eq_true hcont
    have h := sanitizeName_chars _ hmem
    simp [specSafeChar] at h
  · unfold checkAndSanitize
    by_cases h : (sanitizeName s).length > 80
    · rw [if_pos h]
      have hsafe : ∀ c ∈ (sanitizeName s).toList.take 80, specSafeChar c = true :=
        fun c hc => sanitizeName_chars _ (List.mem_of_mem_take hc)
      rw [sanitizeName_of_safe hsafe]
      have hlen : (String.mk ((sanitizeName s).toList.take 80)).length ≤ 80 := by
        show ((sanitizeName s).toList.take 80).length ≤ 80
        simp
      rw [if_neg (by omega)]
    · rw [if_neg h, sanitizeName_idem, if_neg h]

/-- Claim C3, counterexample to the claim as stated: sanitizing `"a..b"`
returns it unchanged, and that output contains `..` and the character `.`,
which is outside the claim's allowed set (alphanumeric, space, underscore,
hyphen). -/
theorem sanitize_component_keeps_dots_cex :
    sanitizePathComponent "a..b" = "a..b"
    ∧ listHasInfix ("a..b").toList ['.', '.'] = true
    ∧ ("a..b").toList.all specSafeChar = false := by
  exact ⟨rfl, by decide, by decide⟩

/-! ### C4: sort direction and missing values -/

/-- Claim C4 (code bug): on records `[{age: 30}, {}]` the sort is stable and,
ascending, puts the missing-value record last — but descending
(`reverse=True`) puts it FIRST, because the `(value is None, value)` key
tuple is reversed along with everything else, contradicting the source's own
"putting them at the end" comment and the spec's "regardless of direction". -/
theorem sort_descending_puts_missing_first :
    sortRecords [Record.mk "1" [("age", .vint 30)], Record.mk "2" []] "age" false
      = .ok [Record.mk "2" [], Record.mk "1" [("age", .vint 30)]]
    ∧ sortRecords [Record.mk "1" [("age", .vint 30)], Record.mk "2" []] "age" true
      = .ok [Record.mk "1" [("age", .vint 30)], Record.mk "2" []] :=
  ⟨rfl, rfl⟩

/-! ### C6: aggregation -/

theorem aggValues_eq_filterMap (fieldName : String) (records : List Record) :
    aggValues fieldName records =
      records.filterMap (fun r =>
        match getNestedField r.data fieldName with
        | .vnone => none
        | v => some v) := by
  induction records with
  | nil => rfl
  | cons r rs ih =>
    rw [aggValues, List.filterMap_cons, ih]
    cases getNestedField r.data fieldName <;> rfl

/-- Claim C6 (amended): `aggregate` returns `None` for the empty record list
under every operation, `count` included; on a nonempty list `count` is the
record count; `sum`/`avg`/`min`/`max` work on exactly the non-`None` looked-up
values (their result is a function of that collected list alone) and give
`None` when that list is empty. -/
theorem aggregate_semantics (records : List Record) (fieldName : String) :
    (∀ op, aggregate [] fieldName op = .ok none)
    ∧ (records ≠ [] →
        aggregate records fieldName "count" = .ok (some (.vint records.length)))
    ∧ (aggValues fieldName records =
        records.filterMap (fun r =>
          match getNestedField r.data fieldName with
          | .vnone => none
          | v => some v))
    ∧ (∀ op ∈ ["sum", "avg", "min", "max"], records ≠ [] →
        aggValues fieldName records = [] → aggregate records fieldName op = .ok none)
    ∧ (∀ op ∈ ["sum", "avg", "min", "max"],
        ∀ (records' : List Record) (fieldName' : String), records ≠ [] → records' ≠ [] →
        aggValues fieldName' records' = aggValues fieldName records →
        aggregate records' fieldName' op = aggregate records fieldName op) := by
  refine ⟨fun op => rfl, ?_, aggValues_eq_filterMap fieldName records, ?_, ?_⟩
  · intro hne
    cases records with
    | nil => exact absurd rfl hne
    | cons r rs => rfl
  · intro op hop hne hval
    cases records with
    | nil => exact absurd rfl hne
    | cons r rs =>
      simp only [List.mem_cons, List.mem_singleton, List.not_mem_nil, or_false] at hop
      rcases hop with rfl | rfl | rfl | rfl
      all_goals rw [aggregate]; simp [hval]
  · intro op hop records' fieldName' hne hne' hvals
    cases records with
    | nil => exact absurd rfl hne
    | cons r rs =>
      cases records' with
      | nil => exact absurd rfl hne'
      | cons r' rs' =>
        simp only [List.mem_cons, List.mem_singleton, List.not_mem_nil, or_false] at hop
        rcases hop with rfl | rfl | rfl | rfl
        all_goals rw [aggregate, aggregate]; simp only [hvals]; rfl

/-- Claim C6, witness for the amended theorem at a concrete table. -/
theorem aggregate_semantics_witness :
    aggregate [Record.mk "1" [("price", .vint 899)]] "price" "count"
      = .ok (some (.vint 1)) :=
  (aggregate_semantics [Record.mk "1" [("price", .vint 899)]] "price").2.1
    (by simp)

/-- Claim C6, counterexample to the claim as stated: `count` over the empty
record list returns `None`, not the list's length `0`. -/
theorem aggregate_empty_count_cex :
    aggregate [] "price" "count" = .ok none
    ∧ (Except.ok (none : Option PyVal) ≠
        (.ok (some (.vint 0)) : Except String (Option PyVal))) := by
  refine ⟨rfl, ?_⟩
  intro h
  simp at h

/-! ### C7: update on a missing record -/

/-- Claim C7: when no record with the given id exists in the table,
`QueryEngine.update` returns `False` and the filesystem state — in
particular the table's record files — is untouched.  (In this code the
conclusion holds for every state: the facade's lookup either returns `None`
for an absent table or raises the static-class `TypeError`, which the broad
`except` turns into `False` before any write.) -/
theorem update_miss_returns_false_state_unchanged
    (e : EngineCtx) (st : FSState) (tableName : String) (r : Record)
    (_hmiss : fsExists st (recordPath e tableName r.id) = false) :
    qeUpdate e st tableName r = (false, st) := by
  unfold qeUpdate
  cases hg : getTableOperations e st tableName with
  | error msg => rfl
  | ok o =>
    cases o with
    | none => rfl
    | some h => exact h.elim

/-- Claim C7, witness: a database with an existing table directory but no
record file `1.json`. -/
theorem update_miss_returns_false_state_unchanged_witness :
    qeUpdate (EngineCtx.mk "data" "u" "db")
      (FSState.mk ["data", "data/u", "data/u/db", "data/u/db/users"] [])
      "users" (Record.mk "1" [("age", .vint 30)])
      = (false, FSState.mk ["data", "data/u", "data/u/db", "data/u/db/users"] []) :=
  update_miss_returns_false_state_unchanged
    (EngineCtx.mk "data" "u" "db")
    (FSState.mk ["data", "data/u", "data/u/db", "data/u/db/users"] [])
    "users" (Record.mk "1" [("age", .vint 30)]) (by decide)

/-! ### C2: insert/find round trip through the facade -/

/-- Claim C2 (code bug): `QueryEngine.insert` can never return `True`: every
control path ends in the broad `except` (the `QueryOperations` constructor
call raises `TypeError`) or in an explicit `False`.  The second conjunct
evaluates the facade at the claim's concrete shape — a fresh database and
`insert("users", Record(id="1", data={name: "Alice", age: 30}))` — where the
table directory and metadata do get created and yet `False` comes back, so
the hypothesis "insert returns true" of the round-trip claim is never
reached. -/
theorem insert_never_returns_true :
    (∀ (e : EngineCtx) (st : FSState) (tableName : String) (r : Record),
      (qeInsert e st tableName r).1 = false)
    ∧ (qeInsert (EngineCtx.mk "data" "u" "db")
        (FSState.mk ["data", "data/u", "data/u/db"] []) "users"
        (Record.mk "1" [("name", .vstr "Alice"), ("age", .vint 30)])).1 = false := by
  refine ⟨?_, rfl⟩
  intro e st tableName r
  unfold qeInsert
  repeat' split
  all_goals first | rfl | exact Empty.elim (by assumption)

/-! ### C9: the chainable builder mutates in place -/

/-- Claim C9, counterexample to the claim as stated: after
`q.filter_by("age", 5, "ne")` on a builder holding one record with
`age = 5`, the builder the method was invoked on (aliased by the returned
`self`) holds the filtered — here empty — list, so a terminal `all()` on the
original builder no longer observes the record it held before the call. -/
theorem builder_filter_mutates_receiver_cex :
    TableQuery.filterBy (TableQuery.mk [Record.mk "1" [("age", .vint 5)]])
        "age" (.vint 5) "ne"
      = .ok (TableQuery.mk [])
    ∧ TableQuery.all (TableQuery.mk ([] : List Record)) = ([] : List Record)
    ∧ ([] : List Record) ≠ [Record.mk "1" [("age", .vint 5)]] := by
  refine ⟨?_, rfl, by simp⟩
  simp [TableQuery.filterBy, filterByField, filterE, fbCondition, getNestedField,
    strContainsChar, dictGet, pyEq, PyVal.toNum?]
  rfl

/-- Claim C9 (amended): each fluent method of the builder computes the
corresponding pure operation, installs the result as the builder's record
list and returns that same (mutated) builder, so a terminal `all()` after the
call observes the transformed list — not a separate, unchanged original. -/
theorem builder_methods_mutate_and_alias
    (rs : List Record) (f : String) (v : PyVal) (op : String) (asc : Bool)
    (c o k : Int) :
    TableQuery.filterBy (TableQuery.mk rs) f v op
      = (filterByField rs f v op).map TableQuery.mk
    ∧ TableQuery.where' (TableQuery.mk rs) f v op
      = TableQuery.filterBy (TableQuery.mk rs) f v op
    ∧ TableQuery.sortB (TableQuery.mk rs) f asc
      = (sortRecords rs f asc).map TableQuery.mk
    ∧ TableQuery.orderBy (TableQuery.mk rs) f asc
      = TableQuery.sortB (TableQuery.mk rs) f asc
    ∧ TableQuery.limitB (TableQuery.mk rs) c o = TableQuery.mk (limitRecords rs c o)
    ∧ TableQuery.skipB (TableQuery.mk rs) k = TableQuery.mk (pySliceFrom rs k)
    ∧ (TableQuery.filterBy (TableQuery.mk rs) f v op).map TableQuery.all
      = filterByField rs f v op := by
  refine ⟨rfl, rfl, rfl, rfl, rfl, rfl, ?_⟩
  cases h : filterByField rs f v op <;>
    simp [TableQuery.filterBy, h, Except.map, TableQuery.all]

/-! ### C10: duplicate object keys in parsing -/

/-- Claim C10: the object parser performs Python's `result[key] = value`, so
a repeated key parses without error into a single entry holding the value of
its last occurrence, at the position of its first occurrence; the third
conjunct states the assignment law behind it. -/
theorem parse_duplicate_keys_last_wins :
    parseString "\x7b\"a\":1,\"a\":2\x7d" = .ok (.vdict [("a", .vint 2)])
    ∧ parseString "\x7b\"a\":1,\"b\":2,\"a\":3\x7d"
        = .ok (.vdict [("a", .vint 3), ("b", .vint 2)])
    ∧ (∀ (d : List (String × PyVal)) (k : String) (v1 v2 : PyVal),
        dictSet (dictSet d k v1) k v2 = dictSet d k v2) := by
  refine ⟨rfl, rfl, ?_⟩
  intro d k v1 v2
  induction d with
  | nil => simp [dictSet]
  | cons kv rest ih =>
    cases hk : kv.1 == k with
    | true => simp [dictSet, hk]
    | false => simp [dictSet, hk, ih]

/-! ### C5: filtering on a missing field -/

theorem pyEq_vnone_left (v : PyVal) : pyEq .vnone v = v.isNone := by
  cases v <;> simp [pyEq, PyVal.isNone, PyVal.toNum?]

theorem pyLt_vnone_right (v : PyVal) :
    pyLt v .vnone = .error "TypeError: unorderable types" := by
  cases v <;> simp [pyLt, PyVal.toNum?]

theorem pyLt_vnone_left (v : PyVal) :
    pyLt .vnone v = .error "TypeError: unorderable types" := by
  cases v <;> simp [pyLt, PyVal.toNum?]

/-- The per-record consequence of a missing field for each operator of
`filter_by_field`. -/
theorem fbCondition_missing {r : Record} {f : String}
    (h : getNestedField r.data f = .vnone) (v : PyVal) :
    fbCondition f v "eq" r = .ok v.isNone
    ∧ fbCondition f v "ne" r = .ok (!v.isNone)
    ∧ fbCondition f v "gt" r = .error "TypeError: unorderable types"
    ∧ fbCondition f v "gte" r = .error "TypeError: unorderable types"
    ∧ fbCondition f v "lt" r = .error "TypeError: unorderable types"
    ∧ fbCondition f v "lte" r = .error "TypeError: unorderable types"
    ∧ (∀ s, v = .vstr s →
        fbCondition f v "contains" r = .ok (listHasInfix "None".toList s.toList))
    ∧ ((∀ s, v ≠ .vstr s) →
        fbCondition f v "contains" r
          = .error "TypeError: string membership needs a string left operand") := by
  refine ⟨?_, ?_, ?_, ?_, ?_, ?_, ?_, ?_⟩
  · rw [fbCondition]; rw [h, pyEq_vnone_left]
  · rw [fbCondition]; rw [h, pyEq_vnone_left]
  · rw [fbCondition]; rw [h, pyLt_vnone_right]
  · rw [fbCondition]; rw [h, pyLt_vnone_left]; rfl
  · rw [fbCondition]; rw [h, pyLt_vnone_left]
  · rw [fbCondition]; rw [h, pyLt_vnone_right]; rfl
  · rintro s rfl
    rw [fbCondition]; rw [h]; rfl
  · intro hs
    rw [fbCondition]; rw [h]
    cases v with
    | vstr s => exact absurd rfl (hs s)
    | vnone => rfl
    | vbool b => rfl
    | vint n => rfl
    | vfloat q => rfl
    | vlist xs => rfl
    | vdict kvs => rfl

/-- Claim C5 (amended): a record whose field path is missing resolves to
`None`, so `eq` keeps it exactly when the probe value is `None`, `ne` keeps
it exactly when the probe value is not `None`, the four ordering operators
raise `TypeError` (the filter call fails instead of excluding the record),
and `contains` keeps it exactly when the probe is a string occurring inside
`"None"` (a non-string probe raises `TypeError`). -/
theorem filter_missing_field_semantics (rs : List Record) (f : String) (v : PyVal)
    (hmiss : ∀ r ∈ rs, getNestedField r.data f = .vnone) :
    filterByField rs f v "eq" = .ok (if v.isNone then rs else [])
    ∧ filterByField rs f v "ne" = .ok (if v.isNone then [] else rs)
    ∧ (rs ≠ [] → ∀ op ∈ ["gt", "gte", "lt", "lte"],
        filterByField rs f v op = .error "TypeError: unorderable types")
    ∧ (∀ s, v = .vstr s →
        filterByField rs f v "contains"
          = .ok (if listHasInfix "None".toList s.toList then rs else []))
    ∧ (rs ≠ [] → (∀ s, v ≠ .vstr s) →
        filterByField rs f v "contains"
          = .error "TypeError: string membership needs a string left operand") := by
  refine ⟨?_, ?_, ?_, ?_, ?_⟩
  · induction rs with
    | nil => simp [filterByField, filterE]
    | cons r rest ih =>
      have hr := (fbCondition_missing (hmiss r (List.mem_cons_self r rest)) v).1
      have ihr := ih (fun r' hr' => hmiss r' (List.mem_cons_of_mem r hr'))
      rw [filterByField, filterE, hr]
      rw [filterByField] at ihr
      rw [ihr]
      cases hv : v.isNone <;> (try simp only [hv]) <;> rfl
  · induction rs with
    | nil => simp [filterByField, filterE]
    | cons r rest ih =>
      have hr := (fbCondition_missing (hmiss r (List.mem_cons_self r rest)) v).2.1
      have ihr := ih (fun r' hr' => hmiss r' (List.mem_cons_of_mem r hr'))
      rw [filterByField, filterE, hr]
      rw [filterByField] at ihr
      rw [ihr]
      cases hv : v.isNone <;> (try simp only [hv]) <;> rfl
  · intro hne op hop
    cases rs with
    | nil => exact absurd rfl hne
    | cons r rest =>
      have hb := fbCondition_missing (hmiss r (List.mem_cons_self r rest)) v
      simp only [List.mem_cons, List.mem_singleton, List.not_mem_nil, or_false] at hop
      rcases hop with rfl | rfl | rfl | rfl
      · rw [filterByField, filterE, hb.2.2.1]; rfl
      · rw [filterByField, filterE, hb.2.2.2.1]; rfl
      · rw [filterByField, filterE, hb.2.2.2.2.1]; rfl
      · rw [filterByField, filterE, hb.2.2.2.2.2.1]; rfl
  · rintro s rfl
    induction rs with
    | nil => simp [filterByField, filterE]
    | cons r rest ih =>
      have hr := (fbCondition_missing (hmiss r (List.mem_cons_self r rest))
        (.vstr s)).2.2.2.2.2.2.1 s rfl
      have ihr := ih (fun r' hr' => hmiss r' (List.mem_cons_of_mem r hr'))
      rw [filterByField, filterE, hr]
      rw [filterByField] at ihr
      rw [ihr]
      cases hinf : listHasInfix "None".toList s.toList <;> (try simp only [hinf]) <;> rfl
  · intro hne hs
    cases rs with
    | nil => exact absurd rfl hne
    | cons r rest =>
      have hr := (fbCondition_missing (hmiss r (List.mem_cons_self r rest))
        v).2.2.2.2.2.2.2 hs
      rw [filterByField, filterE, hr]
      rfl

/-- Claim C5, witness for the amended theorem: one record with empty data,
probed with the non-`None` value `3`. -/
theorem filter_missing_field_semantics_witness :
    filterByField [Record.mk "1" []] "x" (.vint 3) "ne"
      = .ok (if (PyVal.vint 3).isNone then [] else [Record.mk "1" []]) :=
  (filter_missing_field_semantics [Record.mk "1" []] "x" (.vint 3)
    (by intro r hr; rcases List.mem_singleton.1 hr with rfl; rfl)).2.1

/-- Claim C5, counterexample to the claim as stated: a record missing the
field IS kept by `eq` when the probe value is `None` (the claim says a
missing value never matches under `eq`), and `gt` raises a `TypeError`
rather than excluding the record. -/
theorem filter_missing_eq_none_cex :
    filterByField [Record.mk "1" []] "x" .vnone "eq" = .ok [Record.mk "1" []]
    ∧ ((.ok [Record.mk "1" []] : Except String (List Record)) ≠ .ok [])
    ∧ filterByField [Record.mk "1" []] "x" (.vint 5) "gt"
        = .error "TypeError: unorderable types" := by
  refine ⟨?_, by simp, ?_⟩
  · rw [filterByField, filterE,
      (fbCondition_missing (r := Record.mk "1" []) (f := "x") rfl .vnone).1]
    rfl
  · rw [filterByField, filterE,
      (fbCondition_missing (r := Record.mk "1" []) (f := "x") rfl (.vint 5)).2.2.1]
    rfl

/-! ### C8: join correctness -/

theorem pyEq_symm_hashable {a : PyVal} (ha : pyHashable a = true) (b : PyVal) :
    pyEq a b = pyEq b a := by
  cases a <;> cases b <;>
    simp_all [pyEq, pyHashable, PyVal.toNum?, beq_iff_eq, eq_comm]

theorem pyEq_trans_hashable {a b c : PyVal} (hb : pyHashable b = true)
    (h1 : pyEq a b = true) (h2 : pyEq b c = true) : pyEq a c = true := by
  cases a <;> cases b <;> cases c <;>
    simp_all [pyEq, pyHashable, PyVal.toNum?, beq_iff_eq]

theorem bucketAdd_keys_hashable {lk : List (PyVal × List Record)} {v' : PyVal}
    {r : Record} (hv' : pyHashable v' = true)
    (hks : ∀ kb ∈ lk, pyHashable kb.1 = true) :
    ∀ kb ∈ bucketAdd lk v' r, pyHashable kb.1 = true := by
  induction lk with
  | nil =>
    intro kb hkb
    rcases List.mem_singleton.1 hkb with rfl
    exact hv'
  | cons kb0 rest ih =>
    obtain ⟨k, b⟩ := kb0
    intro kb hkb
    rw [bucketAdd] at hkb
    by_cases h1 : pyEq v' k = true
    · rw [if_pos h1] at hkb
      rcases List.mem_cons.1 hkb with rfl | hkb
      · exact hks (k, b) (List.mem_cons_self _ _)
      · exact hks kb (List.mem_cons_of_mem _ hkb)
    · rw [if_neg h1] at hkb
      rcases List.mem_cons.1 hkb with rfl | hkb
      · exact hks (k, b) (List.mem_cons_self _ _)
      · exact ih (fun kb h => hks kb (List.mem_cons_of_mem _ h)) kb hkb

theorem bucketAdd_buckets_nonempty {lk : List (PyVal × List Record)} {v' : PyVal}
    {r : Record} (hbs : ∀ kb ∈ lk, kb.2 ≠ []) :
    ∀ kb ∈ bucketAdd lk v' r, kb.2 ≠ [] := by
  induction lk with
  | nil =>
    intro kb hkb
    rcases List.mem_singleton.1 hkb with rfl
    simp
  | cons kb0 rest ih =>
    obtain ⟨k, b⟩ := kb0
    intro kb hkb
    rw [bucketAdd] at hkb
    by_cases h1 : pyEq v' k = true
    · rw [if_pos h1] at hkb
      rcases List.mem_cons.1 hkb with rfl | hkb
      · simp
      · exact hbs kb (List.mem_cons_of_mem _ hkb)
    · rw [if_neg h1] at hkb
      rcases List.mem_cons.1 hkb with rfl | hkb
      · exact hbs (k, b) (List.mem_cons_self _ _)
      · exact ih (fun kb h => hbs kb (List.mem_cons_of_mem _ h)) kb hkb

theorem bucketAdd_matches {lk : List (PyVal × List Record)} {v' : PyVal} {r : Record}
    (hv' : pyHashable v' = true) (hkeys : ∀ kb ∈ lk, pyHashable kb.1 = true)
    {v : PyVal} (hv : pyHashable v = true) :
    (bucketFind (bucketAdd lk v' r) v).getD [] =
      ((bucketFind lk v).getD []) ++ (if pyEq v v' = true then [r] else []) := by
  induction lk with
  | nil =>
    cases h : pyEq v v' <;>
      simp [bucketAdd, bucketFind, List.find?, h]
  | cons kb0 rest ih =>
    obtain ⟨k, b⟩ := kb0
    have hk : pyHashable k = true := hkeys (k, b) (List.mem_cons_self _ _)
    have hkeys' : ∀ kb ∈ rest, pyHashable kb.1 = true :=
      fun kb h => hkeys kb (List.mem_cons_of_mem _ h)
    by_cases h1 : pyEq v' k = true
    · by_cases h2 : pyEq v k = true
      · have hkv' : pyEq k v' = true := (pyEq_symm_hashable hv' k) ▸ h1
        have h3 : pyEq v v' = true := pyEq_trans_hashable hk h2 hkv'
        simp [bucketAdd, h1, bucketFind, List.find?, h2, h3]
      · have h3 : pyEq v v' = false := by
          cases hx : pyEq v v' with
          | false => rfl
          | true => exact absurd (pyEq_trans_hashable hv' hx h1) (by simp [h2])
        simp [bucketAdd, h1, bucketFind, List.find?, h2, h3]
    · by_cases h2 : pyEq v k = true
      · have h3 : pyEq v v' = false := by
          cases hx : pyEq v v' with
          | false => rfl
          | true =>
            have hkv : pyEq k v = true := (pyEq_symm_hashable hv k) ▸ h2
            have hkv' : pyEq k v' = true := pyEq_trans_hashable hv hkv hx
            have : pyEq v' k = true := (pyEq_symm_hashable hk v') ▸ hkv'
            exact absurd this (by simp [h1])
        simp [bucketAdd, h1, bucketFind, List.find?, h2, h3]
      · have hrec := ih hkeys'
        simp only [bucketAdd, h1, if_false, Bool.false_eq_true]
        simp only [bucketFind, List.find?] at hrec ⊢
        simp [h2, hrec]

/-- The `right_lookup` construction is exception-free when every right join
value is hashable, keeps hashable keys and nonempty buckets, and its bucket
for a hashable probe value extends the accumulator's bucket with exactly the
right records whose join value equals the probe, in order. -/
theorem buildLookup_ok {rightField : String} {right : List Record}
    (hr : ∀ r ∈ right, pyHashable (getNestedField r.data rightField) = true) :
    ∀ acc, (∀ kb ∈ acc, pyHashable kb.1 = true) → (∀ kb ∈ acc, kb.2 ≠ []) →
    ∃ lk, buildLookup rightField right acc = .ok lk
      ∧ (∀ kb ∈ lk, pyHashable kb.1 = true)
      ∧ (∀ kb ∈ lk, kb.2 ≠ [])
      ∧ ∀ v, pyHashable v = true →
          (bucketFind lk v).getD [] = ((bucketFind acc v).getD []) ++
            (right.filter (fun r => pyEq v (getNestedField r.data rightField))) := by
  induction right with
  | nil =>
    intro acc hks hbs
    exact ⟨acc, rfl, hks, hbs, fun v _ => by simp⟩
  | cons r rs ih =>
    intro acc hks hbs
    have hv' : pyHashable (getNestedField r.data rightField) = true :=
      hr r (List.mem_cons_self _ _)
    have hr' : ∀ r' ∈ rs, pyHashable (getNestedField r'.data rightField) = true :=
      fun r' h => hr r' (List.mem_cons_of_mem _ h)
    obtain ⟨lk, hrun, hks', hbs', hmatch⟩ :=
      ih hr' (bucketAdd acc (getNestedField r.data rightField) r)
        (bucketAdd_keys_hashable hv' hks) (bucketAdd_buckets_nonempty hbs)
    refine ⟨lk, ?_, hks', hbs', ?_⟩
    · rw [buildLookup, hv']
      exact hrun
    · intro v hv
      rw [hmatch v hv, bucketAdd_matches hv' hks hv, List.filter_cons]
      cases hpe : pyEq v (getNestedField r.data rightField) <;>
        simp [hpe, List.append_assoc]

/-- The inner-join left loop emits, for each left record in order, one merged
row per matching right record in right-table order. -/
theorem innerRows_spec {lk : List (PyVal × List Record)}
    {leftField rightField lpfx rpfx : String} {left right : List Record}
    (hl : ∀ l ∈ left, pyHashable (getNestedField l.data leftField) = true)
    (hmatch : ∀ v, pyHashable v = true →
      (bucketFind lk v).getD [] =
        right.filter (fun r => pyEq v (getNestedField r.data rightField))) :
    innerRows lk leftField lpfx rpfx left
      = .ok (innerJoinSpec left right leftField rightField lpfx rpfx) := by
  induction left with
  | nil => rfl
  | cons l ls ih =>
    have hv : pyHashable (getNestedField l.data leftField) = true :=
      hl l (List.mem_cons_self _ _)
    have ihl := ih (fun l' h => hl l' (List.mem_cons_of_mem _ h))
    rw [innerRows, hv]
    simp only [if_true]
    rw [ihl]
    have hrows :
        (match bucketFind lk (getNestedField l.data leftField) with
          | some rs => rs.map (fun r => mergeRow lpfx l rpfx r)
          | none => []) =
        (joinMatches right leftField rightField l).map
          (fun r => mergeRow lpfx l rpfx r) := by
      have hm := hmatch _ hv
      rw [joinMatches]
      cases hb : bucketFind lk (getNestedField l.data leftField) with
      | none =>
        rw [hb] at hm
        simp only [Option.getD_none] at hm
        rw [← hm]
        rfl
      | some rs =>
        rw [hb] at hm
        simp only [Option.getD_some] at hm
        rw [← hm]
    rw [hrows]
    rfl

/-- The left-join loop additionally emits one left-only row per left record
with no match (buckets are nonempty, so a missing bucket is exactly an empty
match list). -/
theorem leftRows_spec {lk : List (PyVal × List Record)}
    {leftField rightField lpfx rpfx : String} {left right : List Record}
    (hl : ∀ l ∈ left, pyHashable (getNestedField l.data leftField) = true)
    (hbs : ∀ kb ∈ lk, kb.2 ≠ [])
    (hmatch : ∀ v, pyHashable v = true →
      (bucketFind lk v).getD [] =
        right.filter (fun r => pyEq v (getNestedField r.data rightField))) :
    leftRows lk leftField lpfx rpfx left
      = .ok (leftJoinSpec left right leftField rightField lpfx rpfx) := by
  induction left with
  | nil => rfl
  | cons l ls ih =>
    have hv : pyHashable (getNestedField l.data leftField) = true :=
      hl l (List.mem_cons_self _ _)
    have ihl := ih (fun l' h => hl l' (List.mem_cons_of_mem _ h))
    rw [leftRows, hv]
    simp only [if_true]
    rw [ihl]
    have hrows :
        (match bucketFind lk (getNestedField l.data leftField) with
          | some rs => rs.map (fun r => mergeRow lpfx l rpfx r)
          | none => [leftOnlyRow lpfx l]) =
        (match joinMatches right leftField rightField l with
          | [] => [leftOnlyRow lpfx l]
          | ms => ms.map (fun r => mergeRow lpfx l rpfx r)) := by
      have hm := hmatch _ hv
      rw [joinMatches]
      cases hb : bucketFind lk (getNestedField l.data leftField) with
      | none =>
        rw [hb] at hm
        simp only [Option.getD_none] at hm
        rw [← hm]
      | some rs =>
        rw [hb] at hm
        simp only [Option.getD_some] at hm
        have hne : rs ≠ [] := by
          rw [bucketFind] at hb
          rcases Option.map_eq_some'.1 hb with ⟨kb, hfind, hkb⟩
          have hmem := List.mem_of_find?_eq_some hfind
          rw [← hkb]
          exact hbs kb hmem
        rw [← hm]
        cases rs with
        | nil => exact absurd rfl hne
        | cons r0 rs' => rfl
    rw [hrows]
    rfl

/-- Claim C8: when every join value is hashable (Python raises `TypeError`
otherwise), `inner_join` returns exactly one merged row for every pair
`(l, r)` whose join values are `==`-equal — ordered by the left table and,
within one left record, by the right table — and no other rows; and
`left_join` returns those same rows plus exactly one row, carrying only the
(prefixed) left fields, for every left record with no matching right
record. -/
theorem join_pair_semantics (left right : List Record)
    (leftField rightField lpfx rpfx : String)
    (hl : ∀ l ∈ left, pyHashable (getNestedField l.data leftField) = true)
    (hr : ∀ r ∈ right, pyHashable (getNestedField r.data rightField) = true) :
    innerJoin left right leftField rightField lpfx rpfx
      = .ok (innerJoinSpec left right leftField rightField lpfx rpfx)
    ∧ leftJoin left right leftField rightField lpfx rpfx
      = .ok (leftJoinSpec left right leftField rightField lpfx rpfx) := by
  obtain ⟨lk, hrun, hks, hbs, hmatch⟩ :=
    buildLookup_ok hr [] (by intro kb h; cases h) (by intro kb h; cases h)
  have hmatch' : ∀ v, pyHashable v = true →
      (bucketFind lk v).getD [] =
        right.filter (fun r => pyEq v (getNestedField r.data rightField)) := by
    intro v hv
    rw [hmatch v hv]
    rfl
  constructor
  · rw [innerJoin, hrun]
    show innerRows lk leftField lpfx rpfx left = _
    exact innerRows_spec hl hmatch'
  · rw [leftJoin, hrun]
    show leftRows lk leftField lpfx rpfx left = _
    exact leftRows_spec hl hbs hmatch'

/-- Claim C8, witness: users joined with orders on `uid`; the first order
matches, the second does not; the left join keeps the unmatched user. -/
theorem join_pair_semantics_witness :
    innerJoin [Record.mk "1" [("uid", .vint 1)], Record.mk "2" [("uid", .vint 3)]]
        [Record.mk "o1" [("uid", .vint 1), ("amt", .vint 7)]]
        "uid" "uid" "left_" "right_"
      = .ok (innerJoinSpec
          [Record.mk "1" [("uid", .vint 1)], Record.mk "2" [("uid", .vint 3)]]
          [Record.mk "o1" [("uid", .vint 1), ("amt", .vint 7)]]
          "uid" "uid" "left_" "right_") :=
  (join_pair_semantics
    [Record.mk "1" [("uid", .vint 1)], Record.mk "2" [("uid", .vint 3)]]
    [Record.mk "o1" [("uid", .vint 1), ("amt", .vint 7)]]
    "uid" "uid" "left_" "right_"
    (by intro l h; rcases List.mem_cons.1 h with rfl | h
        · rfl
        · rcases List.mem_singleton.1 h with rfl; rfl)
    (by intro r h; rcases List.mem_singleton.1 h with rfl; rfl)).1

end NaturalDB
